import Mathlib

/-!
Verification of behavioral strategies from Axelrod's second tournament
(src/axelrod/strategies/axelrod_second.py).

Each Python strategy class is shallowly embedded as a pure Lean step
function.  A strategy step takes the private strategy state, the two
chronological histories (own history `h`, opponent history `o`, both
oldest-first), and one rational draw `r` standing for the single
`random.random()` value a call may consume, and returns the chosen
action together with the updated private state.  Python float
arithmetic is modelled with exact rationals; Python integers with
Nat/Int.  Negative-index accesses such as `history[-1]` become `getD`
at `length - 1` (guarded by the same emptiness checks as the source).
-/

set_option maxRecDepth 10000

namespace Axelrod

inductive Action where
  | C : Action
  | D : Action
deriving DecidableEq

open Action

/-- Action.flip swaps the two actions (axelrod.action.Action.flip). -/
def Action.flip : Action → Action
  | C => D
  | D => C

/-- Last element of a history, i.e. Python `xs[-1]` (default C, used only
when the source has already checked nonemptiness). -/
def lastA (l : List Action) : Action :=
  l.getD (l.length - 1) C

/-- Second-to-last element of a history, i.e. Python `xs[-2]`. -/
def penA (l : List Action) : Action :=
  l.getD (l.length - 2) C

/-- Embedding of axelrod.random_.random_choice: return C with
probability p, deciding with the draw `r` from [0,1). -/
def random_choice (p r : ℚ) : Action :=
  if p = 0 then D
  else if p = 1 then C
  else if r < p then C else D

/-- Modelled from the spec: the payoff function
`score(self_action, opponent_action) -> (self_payoff, opponent_payoff)`
supplied by the orchestrator (section 6 of the spec; the Game class is
not under src/).  The standard values (3,0,5,1) are the ones the
in-src Tranquilizer ratio formula `3 - 3*opp + 2*own - opp*own`
reproduces on the 0/1 action codes. -/
def gameScore : Action → Action → ℚ × ℚ
  | C, C => (3, 3)
  | C, D => (0, 5)
  | D, C => (5, 0)
  | D, D => (1, 1)

/-- Modelled from the spec: axelrod.interaction_utils.compute_final_score
(not under src/) — the running cumulative payoff pair over the zipped
histories. -/
def compute_final_score (h o : List Action) : ℚ × ℚ :=
  (List.zip h o).foldl
    (fun acc p => (acc.1 + (gameScore p.1 p.2).1, acc.2 + (gameScore p.1 p.2).2))
    (0, 0)

/-- Champion.strategy (lines 44-60): cooperate for 10 rounds, mirror for
15 more, then cooperate unless the opponent just defected and its
defection proportion reaches max(0.4, r). -/
def champion_strategy (h o : List Action) (r : ℚ) : Action :=
  let current_round := h.length
  if current_round = 0 then C
  else if current_round < 10 then C
  else if current_round < 25 then lastA o
  else
    let defection_prop : ℚ := (o.count D : ℚ) / (o.length : ℚ)
    if lastA o = D then
      if defection_prop ≥ max (2/5) r then D else C
    else C

/-- Eatherley.strategy (lines 88-99). -/
def eatherley_strategy (o : List Action) (r : ℚ) : Action :=
  if o.length = 0 then C
  else if lastA o = C then C
  else random_choice (1 - (o.count D : ℚ) / (o.length : ℚ)) r

/-- Tester.strategy (lines 133-148).  State is the `is_TFT` flag. -/
def tester_strategy (isTFT : Bool) (h o : List Action) : Action × Bool :=
  if o = [] then (D, isTFT)
  else if isTFT then
    (if lastA o = D then D else C, isTFT)
  else if lastA o = D then (C, true)
  else if h.length = 1 ∨ h.length = 2 then (C, isTFT)
  else ((lastA h).flip, isTFT)

/-- Gladstein.strategy (lines 187-204).  State is the `patsy` flag. -/
def gladstein_strategy (patsy : Bool) (h o : List Action) : Action × Bool :=
  if h = [] then (D, patsy)
  else if patsy then
    if lastA o = D then (C, false)
    else
      let coop_rate : ℚ := (h.count C : ℚ) / (h.length : ℚ)
      if coop_rate > 1/2 then (D, patsy) else (C, patsy)
  else (lastA o, patsy)

/-- MoreGrofman.strategy (lines 454-470): the window is
`opponent.history[-8:-1]`, the first 7 of the last 8 rounds. -/
def moregrofman_strategy (h o : List Action) : Action :=
  if h.length < 2 then C
  else if h.length ≤ 6 then lastA o
  else
    let window := (o.take (o.length - 1)).drop (o.length - 8)
    let k := window.count D
    if lastA h = C ∧ k ≤ 2 then C
    else if lastA h = D ∧ k ≤ 1 then C
    else D

/-- Cave.strategy (lines 758-780).  Note perc_defects divides by `turn`,
not by the opponent history length. -/
def cave_strategy (h o : List Action) (r : ℚ) : Action :=
  let turn := h.length + 1
  if turn = 1 then C
  else
    let number_defects := o.count D
    let perc_defects : ℚ := (number_defects : ℚ) / (turn : ℚ)
    if 39 < turn ∧ perc_defects > 39/100 then D
    else if 29 < turn ∧ perc_defects > 65/100 then D
    else if 19 < turn ∧ perc_defects > 79/100 then D
    else if lastA o = D then
      if 17 < number_defects then D else random_choice (1/2) r
    else C

/-- WmAdams.strategy (lines 809-820). -/
def wmadams_strategy (h o : List Action) (r : ℚ) : Action :=
  if h.length ≤ 1 then C
  else
    let number_defects := if o.getD 0 C = D then o.count D - 1 else o.count D
    if number_defects = 4 ∨ number_defects = 7 ∨ number_defects = 9 then D
    else if 9 < number_defects ∧ lastA o = D then
      random_choice ((1/2) ^ (number_defects - 9)) r
    else C

/-- Mode of GraaskampKatzen (the source uses the strings "Normal" and
"Defect"). -/
inductive GKMode where
  | Normal : GKMode
  | Defect : GKMode
deriving DecidableEq

/-- Private state of GraaskampKatzen. -/
structure GKState where
  own_score : ℚ
  mode : GKMode
deriving DecidableEq

def gkInit : GKState := { own_score := 0, mode := GKMode.Normal }

/-- GraaskampKatzen.update_score (lines 861-864); the payoff function
`g` is the externally supplied game. -/
def gk_update_score (g : Action → Action → ℚ × ℚ) (s : GKState)
    (h o : List Action) : GKState :=
  { s with own_score := s.own_score + (g (lastA h) (lastA o)).1 }

/-- GraaskampKatzen.strategy (lines 866-885). -/
def gk_strategy (g : Action → Action → ℚ × ℚ) (s : GKState)
    (h o : List Action) : Action × GKState :=
  if s.mode = GKMode.Defect then (D, s)
  else
    let turn := h.length + 1
    if turn = 1 then (C, s)
    else
      let s1 := gk_update_score g s h o
      if (turn = 11 ∧ s1.own_score < 23) ∨
         (turn = 21 ∧ s1.own_score < 53) ∨
         (turn = 31 ∧ s1.own_score < 83) ∨
         (turn = 41 ∧ s1.own_score < 113) ∨
         (turn = 51 ∧ s1.own_score < 143) ∨
         (turn = 101 ∧ s1.own_score < 293) then
        (D, { s1 with mode := GKMode.Defect })
      else (lastA o, s1)

/-- Private state of Kluepfel: the four response counters (lines 518-520). -/
structure KState where
  cd_counts : ℕ
  dd_counts : ℕ
  dc_counts : ℕ
  cc_counts : ℕ
deriving DecidableEq

def kInit : KState := ⟨0, 0, 0, 0⟩

/-- Kluepfel response-matrix update (lines 523-534). -/
def kluepfel_update (s : KState) (h o : List Action) : KState :=
  if 2 ≤ h.length then
    if penA h = D then
      if lastA o = C then { s with cd_counts := s.cd_counts + 1 }
      else { s with dd_counts := s.dd_counts + 1 }
    else
      if lastA o = C then { s with dc_counts := s.dc_counts + 1 }
      else { s with cc_counts := s.cc_counts + 1 }
  else s

/-- Exact decidable form of the source inequality
`x >= (x+y)/2 - 0.75*sqrt(x+y)` (lines 538-539): either x already
reaches (x+y)/2, or the nonnegative gap squared is at most
(0.75)^2 * (x+y).  See kluepfel_random_bound_iff_sqrt below for the
proof that this Bool agrees with the real-number formula. -/
def kluepfel_random_bound (x y : ℕ) : Bool :=
  (x + y ≤ 2 * x) || (4 * ((x + y) - 2 * x) ^ 2 ≤ 9 * (x + y))

/-- Kluepfel randomness classification (lines 538-539): both response
pairs satisfy the mean-minus-0.75-sqrt bound. -/
def kluepfel_detects_random (s : KState) : Bool :=
  kluepfel_random_bound s.cd_counts s.dd_counts &&
  kluepfel_random_bound s.cc_counts s.dc_counts

/-- The guard `len(self.history) > 26` (line 537) that gates the
randomness check: `n` is the length of the own history, so at round t
the guard reads `t - 1 > 26`. -/
def kluepfel_random_gate (n : ℕ) : Bool :=
  26 < n

/-- Kluepfel.strategy (lines 522-570).  The final probability cascade in
the source has no catch-all return, so the embedding returns an Option:
`none` is the Python fall-off-the-end value (never reached; claim C9). -/
def kluepfel_strategy (s : KState) (h o : List Action) (r : ℚ) :
    Option Action × KState :=
  let s1 := kluepfel_update s h o
  if kluepfel_random_gate h.length && kluepfel_detects_random s1 then
    (some D, s1)
  else
    let one_move_ago := if 1 ≤ o.length then lastA o else C
    let two_moves_ago := if 2 ≤ o.length then penA o else C
    let three_moves_ago := if 3 ≤ o.length then o.getD (o.length - 3) C else C
    if one_move_ago = two_moves_ago ∧ two_moves_ago = three_moves_ago then
      (some one_move_ago, s1)
    else if one_move_ago = two_moves_ago then
      (some (if r < 9/10 then one_move_ago else one_move_ago.flip), s1)
    else if one_move_ago = C then
      (some (if r < 7/10 then one_move_ago else one_move_ago.flip), s1)
    else if one_move_ago = D then
      (some (if r < 6/10 then one_move_ago else one_move_ago.flip), s1)
    else (none, s1)


/-- Mode of Borufsen (the source uses the strings "Normal" and "Defect"). -/
inductive BMode where
  | Normal : BMode
  | Defect : BMode
deriving DecidableEq

/-- Private state of Borufsen (lines 625-631). -/
structure BState where
  cd_counts : ℕ
  cc_counts : ℕ
  mutual_defect_streak : ℕ
  echo_streak : ℕ
  flip_next_defect : Bool
  mode : BMode
deriving DecidableEq

def bInit : BState :=
  { cd_counts := 0, cc_counts := 0, mutual_defect_streak := 0,
    echo_streak := 0, flip_next_defect := false, mode := BMode.Normal }

/-- Borufsen.try_return (lines 633-645): a defect is turned into a
cooperation when the flip bit is set, clearing the bit. -/
def borufsen_try_return (s : BState) (a : Action) : Action × BState :=
  if a = C then (C, s)
  else if s.flip_next_defect then (C, { s with flip_next_defect := false })
  else (D, s)

/-- The mode re-evaluation block of Borufsen.strategy (lines 662-688).
Returns the updated state together with the coming-from-defect early
return flag (return D immediately when switching Defect to Normal). -/
def borufsen_eval_mode (s : BState) : BState × Bool :=
  let coming_from_defect := s.mode = BMode.Defect
  let coops := s.cd_counts + s.cc_counts
  let defective :=
    coops < 3 ∨
    (8 ≤ coops ∧ coops ≤ 17 ∧ (s.cc_counts : ℚ) / (coops : ℚ) < 7/10)
  let s1 := { s with cd_counts := 0, cc_counts := 0,
                     mode := if defective then BMode.Defect else BMode.Normal }
  let s2 := if defective then
      { s1 with mutual_defect_streak := 0, echo_streak := 0,
                flip_next_defect := false }
    else s1
  (s2, ¬defective ∧ coming_from_defect)

/-- Borufsen.strategy (lines 647-723). -/
def borufsen_strategy (s : BState) (h o : List Action) : Action × BState :=
  let turn := h.length + 1
  if turn = 1 then (C, s)
  else
    let s1 :=
      if 3 ≤ turn then
        if lastA o = C then
          if penA h = C then { s with cc_counts := s.cc_counts + 1 }
          else { s with cd_counts := s.cd_counts + 1 }
        else s
      else s
    let ev := if 2 < turn ∧ turn % 25 = 2 then borufsen_eval_mode s1
              else (s1, false)
    let s2 := ev.1
    if ev.2 then (D, s2)
    else if s2.mode = BMode.Defect then (D, s2)
    else
      let mds := if lastA h = D ∧ lastA o = D then s2.mutual_defect_streak + 1
                 else 0
      let s3 := { s2 with mutual_defect_streak := mds }
      if 3 ≤ mds then
        borufsen_try_return { s3 with mutual_defect_streak := 0, echo_streak := 0 } C
      else
        let my_two_back := if 3 ≤ turn then penA h else C
        let opp_two_back := if 3 ≤ turn then penA o else C
        let es := if lastA h ≠ lastA o ∧ lastA h = opp_two_back ∧
                     lastA o = my_two_back then s3.echo_streak + 1
                  else 0
        let s4 := { s3 with echo_streak := es }
        let s5 := if 3 ≤ es then
            { s4 with mutual_defect_streak := 0, echo_streak := 0,
                      flip_next_defect := true }
          else s4
        borufsen_try_return s5 (lastA o)

/-- Private state of Weiner (lines 931-937).  The fixed-length-12 ring
buffer last_twelve is a function on Fin 12, its cursor lt_index an
element of Fin 12 (the source keeps it in 0..11 via mod 12). -/
structure WState where
  forgive_flag : Bool
  grudge : ℕ
  defect_padding : ℕ
  last_twelve : Fin 12 → ℕ
  lt_index : Fin 12

def wInit : WState :=
  { forgive_flag := false, grudge := 0, defect_padding := 0,
    last_twelve := fun _ => 0, lt_index := 0 }

/-- The lag-1 ring buffer update of Weiner.strategy (lines 953-957):
record whether the opponent defected two rounds ago. -/
def weiner_buf_update (s : WState) (o : List Action) : WState :=
  if 2 ≤ o.length then
    { s with
      last_twelve :=
        Function.update s.last_twelve s.lt_index (if penA o = D then 1 else 0),
      lt_index := s.lt_index + 1 }
  else s

/-- Weiner.try_return (lines 939-946): the defective override. -/
def weiner_try_return (s : WState) (a : Action) : Action :=
  if 5 ≤ ∑ j : Fin 12, s.last_twelve j then D else a

/-- The forgiveness/padding core of Weiner.strategy (lines 959-977),
run after the buffer update; returns the pre-override choice. -/
def weiner_core (s : WState) (h o : List Action) : Action × WState :=
  if s.forgive_flag then
    let s2 := { s with forgive_flag := false, defect_padding := 0 }
    if s2.grudge < h.length + 1 ∧ lastA o = D then
      (C, { s2 with grudge := s2.grudge + 20 })
    else (lastA o, s2)
  else
    if lastA o = D then
      (lastA o, { s with defect_padding := s.defect_padding + 1 })
    else
      (lastA o,
       { s with forgive_flag := decide (s.defect_padding % 2 = 1),
                defect_padding := 0 })

/-- Weiner.strategy (lines 948-977). -/
def weiner_strategy (s : WState) (h o : List Action) : Action × WState :=
  if o.length = 0 then (C, s)
  else
    let s1 := weiner_buf_update s o
    let res := weiner_core s1 h o
    (weiner_try_return res.2 res.1, res.2)

/-- Private state of Tranquilizer (lines 330-339).  Source field names:
num_turns_after_good_defection (FD), opponent_consecutive_defections
(S), one_turn_after_good_defection_ratio (AD),
two_turns_after_good_defection_ratio (NO) and the two _count fields
(AK, NK); the two averages are called one_turn_avg / two_turns_avg
here. -/
structure TState where
  num_turns_after_good_defection : ℕ
  opponent_consecutive_defections : ℕ
  one_turn_avg : ℚ
  two_turns_avg : ℚ
  one_turn_count : ℕ
  two_turns_count : ℕ
deriving DecidableEq

def tInit : TState :=
  { num_turns_after_good_defection := 0, opponent_consecutive_defections := 0,
    one_turn_avg := 5, two_turns_avg := 0,
    one_turn_count := 1, two_turns_count := 1 }

/-- The 0/1 code of an action, i.e. the source dict {C: 0, D: 1}. -/
def actVal : Action → ℚ
  | C => 0
  | D => 1

/-- Tranquilizer.update_state (lines 342-377). -/
def tranquilizer_update_state (s : TState) (h o : List Action) : TState :=
  let ov := actVal (lastA o)
  let hv := actVal (lastA h)
  let s1 := if lastA o = D then
      { s with opponent_consecutive_defections :=
          s.opponent_consecutive_defections + 1 }
    else { s with opponent_consecutive_defections := 0 }
  if s1.num_turns_after_good_defection = 2 then
    { s1 with
      num_turns_after_good_defection := 0,
      two_turns_avg :=
        (s1.two_turns_avg * (s1.two_turns_count : ℚ)
          + (3 - 3 * ov) + 2 * hv - ov * hv) / ((s1.two_turns_count : ℚ) + 1),
      two_turns_count := s1.two_turns_count + 1 }
  else if s1.num_turns_after_good_defection = 1 then
    { s1 with
      num_turns_after_good_defection := 2,
      one_turn_avg :=
        (s1.one_turn_avg * (s1.one_turn_count : ℚ)
          + (3 - 3 * ov) + 2 * hv - ov * hv) / ((s1.one_turn_count : ℚ) + 1),
      one_turn_count := s1.one_turn_count + 1 }
  else s1

/-- Tranquilizer.strategy (lines 379-413). -/
def tranquilizer_strategy (s : TState) (h o : List Action) (r : ℚ) :
    Action × TState :=
  if h = [] then (C, s)
  else
    let s1 := tranquilizer_update_state s h o
    if s1.num_turns_after_good_defection = 1 ∨
       s1.num_turns_after_good_defection = 2 then (C, s1)
    else
      let current_score := compute_final_score h o
      let n1 : ℚ := (h.length : ℚ) + 1
      if current_score.1 / n1 ≥ 9/4 then
        let probability :=
          (19/20 - ((s1.one_turn_avg + s1.two_turns_avg - 5) / 15))
            + 1 / n1 ^ 2 - actVal (lastA o) / 4
        if r ≤ probability then (C, s1)
        else (D, { s1 with num_turns_after_good_defection := 1 })
      else if current_score.1 / n1 ≥ 7/4 then
        let probability :=
          (1/4 + ((o.count C : ℚ) + 1) / n1)
            - (s1.opponent_consecutive_defections : ℚ) * (1/4)
            + (current_score.1 - current_score.2) / 100
            + 4 / n1
        if r ≤ probability then (C, s1) else (D, s1)
      else (lastA o, s1)

/-- Mode of Harrington (the source uses the strings "Normal",
"Fair-weather" and "Defect"). -/
inductive HMode where
  | Normal : HMode
  | FairWeather : HMode
  | Defect : HMode
deriving DecidableEq

/-- The 4x2 move_history contingency matrix of Harrington (line 1096):
rows are the (own move, opponent move) combination two turns back,
columns the most recent opponent move. -/
structure MoveHist where
  m00 : ℕ
  m01 : ℕ
  m10 : ℕ
  m11 : ℕ
  m20 : ℕ
  m21 : ℕ
  m30 : ℕ
  m31 : ℕ
deriving DecidableEq

def mhZero : MoveHist := ⟨0, 0, 0, 0, 0, 0, 0, 0⟩

/-- Entry of the move_history matrix at row i, column j. -/
def mhGet (m : MoveHist) : Fin 4 → Fin 2 → ℕ
  | 0, 0 => m.m00
  | 0, 1 => m.m01
  | 1, 0 => m.m10
  | 1, 1 => m.m11
  | 2, 0 => m.m20
  | 2, 1 => m.m21
  | 3, 0 => m.m30
  | 3, 1 => m.m31

/-- Increment the move_history cell at (row, col) by one (line 1212). -/
def mhBump (m : MoveHist) (row col : ℕ) : MoveHist :=
  if row = 0 then
    if col = 0 then { m with m00 := m.m00 + 1 } else { m with m01 := m.m01 + 1 }
  else if row = 1 then
    if col = 0 then { m with m10 := m.m10 + 1 } else { m with m11 := m.m11 + 1 }
  else if row = 2 then
    if col = 0 then { m with m20 := m.m20 + 1 } else { m with m21 := m.m21 + 1 }
  else
    if col = 0 then { m with m30 := m.m30 + 1 } else { m with m31 := m.m31 + 1 }

/-- Row sum of the move_history matrix (move_history.sum(axis=1)). -/
def mhRow (m : MoveHist) : Fin 4 → ℕ
  | 0 => m.m00 + m.m01
  | 1 => m.m10 + m.m11
  | 2 => m.m20 + m.m21
  | 3 => m.m30 + m.m31

/-- Column sum of the move_history matrix (move_history.sum(axis=0)). -/
def mhCol (m : MoveHist) : Fin 2 → ℕ
  | 0 => m.m00 + m.m10 + m.m20 + m.m30
  | 1 => m.m01 + m.m11 + m.m21 + m.m31

/-- One term of the Harrington chi-squared loop (lines 1152-1156): the
expected count is row sum times column sum over denom, and the term
only contributes when the expected count is strictly greater than 1. -/
def hChiTerm (rowsum colsum obs : ℕ) (denom : ℚ) : ℚ :=
  let expct : ℚ := ((rowsum : ℚ) * (colsum : ℚ)) / denom
  if expct > 1 then (expct - (obs : ℚ)) ^ 2 / expct else 0

/-- The chi-squared statistic of Harrington.detect_random as the source
computes it: the 4x2 loop unrolled (lines 1148-1156). -/
def harrington_chi (m : MoveHist) (denom : ℚ) : ℚ :=
  hChiTerm (mhRow m 0) (mhCol m 0) m.m00 denom
    + hChiTerm (mhRow m 0) (mhCol m 1) m.m01 denom
    + hChiTerm (mhRow m 1) (mhCol m 0) m.m10 denom
    + hChiTerm (mhRow m 1) (mhCol m 1) m.m11 denom
    + hChiTerm (mhRow m 2) (mhCol m 0) m.m20 denom
    + hChiTerm (mhRow m 2) (mhCol m 1) m.m21 denom
    + hChiTerm (mhRow m 3) (mhCol m 0) m.m30 denom
    + hChiTerm (mhRow m 3) (mhCol m 1) m.m31 denom

/-- Harrington.detect_random (lines 1119-1160). -/
def harrington_detect_random (m : MoveHist) (recorded_defects turn : ℕ) :
    Bool :=
  let denom : ℚ := (turn : ℚ) - 2
  if (m.m00 : ℚ) / denom ≥ 4/5 then false
  else if (recorded_defects : ℚ) / denom < 1/4 ∨
          (recorded_defects : ℚ) / denom > 3/4 then false
  else if harrington_chi m denom > 3 then false
  else true

/-- Private state of Harrington (lines 1086-1107).  The unused field
coops_in_first_36 (initialized to None and never read) is omitted.
more_coop is an integer because try_return decrements it below zero. -/
structure HState where
  mode : HMode
  recorded_defects : ℕ
  exit_defect_meter : ℤ
  was_defective : Bool
  prob : ℚ
  move_history : MoveHist
  history_row : ℕ
  more_coop : ℤ
  generous_n_turns_ago : ℕ
  burned : Bool
  defect_streak : ℕ
  parity_streak0 : ℕ
  parity_streak1 : ℕ
  parity_bit : ℕ
  parity_limit : ℕ
  parity_hits : ℕ
deriving DecidableEq

def hInit : HState :=
  { mode := HMode.Normal, recorded_defects := 0, exit_defect_meter := 0,
    was_defective := false, prob := 1/4, move_history := mhZero,
    history_row := 0, more_coop := 0, generous_n_turns_ago := 3,
    burned := false, defect_streak := 0, parity_streak0 := 0,
    parity_streak1 := 0, parity_bit := 0, parity_limit := 5,
    parity_hits := 0 }

/-- Read the parity streak bucket selected by the parity bit. -/
def hParity (s : HState) : ℕ :=
  if s.parity_bit = 0 then s.parity_streak0 else s.parity_streak1

/-- Write the parity streak bucket selected by the parity bit. -/
def hSetParity (s : HState) (v : ℕ) : HState :=
  if s.parity_bit = 0 then { s with parity_streak0 := v }
  else { s with parity_streak1 := v }

/-- Harrington.try_return (lines 1109-1117). -/
def harrington_try_return (s : HState) (a : Action)
    (lower_flags inc_parity : Bool) : Action × HState :=
  let s1 := if lower_flags ∧ a = C then
      { s with more_coop := s.more_coop - 1,
               generous_n_turns_ago := s.generous_n_turns_ago + 1 }
    else s
  let s2 := if inc_parity ∧ a = D then hSetParity s1 (hParity s1 + 1) else s1
  (a, s2)

/-- Harrington.detect_streak (lines 1162-1173). -/
def harrington_detect_streak (s : HState) (last_move : Action) :
    Bool × HState :=
  let s1 := if last_move = D then { s with defect_streak := s.defect_streak + 1 }
            else { s with defect_streak := 0 }
  (decide (20 ≤ s1.defect_streak), s1)

/-- Harrington.detect_parity_streak (lines 1175-1182): flip the parity
bit, update the selected bucket, and report whether it reached the
parity limit (the Python function returns True or falsy None). -/
def harrington_detect_parity_streak (s : HState) (last_move : Action) :
    Bool × HState :=
  let s1 := { s with parity_bit := 1 - s.parity_bit }
  let s2 := if last_move = D then hSetParity s1 (hParity s1 + 1)
            else hSetParity s1 0
  (decide (s2.parity_limit ≤ hParity s2), s2)

/-- The move_history / recorded_defects update of Harrington.strategy
(lines 1208-1212). -/
def harrington_record (s : HState) (o : List Action) : HState :=
  let sA : HState := if lastA o = D then
      { s with recorded_defects := s.recorded_defects + 1 }
    else s
  { sA with move_history :=
      mhBump sA.move_history sA.history_row (if lastA o = D then 1 else 0) }

/-- Harrington.strategy (lines 1184-1268). -/
def harrington_strategy (s : HState) (h o : List Action) (r : ℚ) :
    Action × HState :=
  let turn := h.length + 1
  if turn = 1 then (C, s)
  else if s.mode = HMode.Defect then
    let s1 : HState := if lastA o = D then
        { s with exit_defect_meter := s.exit_defect_meter + 1 }
      else { s with exit_defect_meter := s.exit_defect_meter - 3 }
    if 11 ≤ s1.exit_defect_meter then
      harrington_try_return
        { s1 with mode := HMode.Normal, was_defective := true, more_coop := 2 }
        C false false
    else harrington_try_return s1 D true false
  else
    let s1 : HState := if 2 < turn then harrington_record s o else s
    if turn % 15 = 0 ∧ 15 < turn ∧ ¬s1.was_defective ∧
       harrington_detect_random s1.move_history s1.recorded_defects turn then
      harrington_try_return { s1 with mode := HMode.Defect } D false false
    else
      let s2 : HState := { s1 with history_row :=
          (if lastA o = D then 1 else 0) + (if lastA h = D then 2 else 0) }
      let s3 : HState := if s2.generous_n_turns_ago = 2 ∧ lastA o = D then
          { s2 with burned := true }
        else s2
      if turn = 38 ∧ lastA o = D ∧ o.count C = 36 then
        harrington_try_return { s3 with mode := HMode.FairWeather } C false false
      else
        let s4 : HState := if s3.mode = HMode.FairWeather ∧ lastA o = D then
            { s3 with mode := HMode.Normal }
          else s3
        if s4.mode = HMode.FairWeather then
          harrington_try_return s4 C true false
        else
          let ds := harrington_detect_streak s4 (lastA o)
          if ds.1 then harrington_try_return ds.2 D true true
          else
            let ps := harrington_detect_parity_streak ds.2 (lastA o)
            if ps.1 then
              let s5 : HState := hSetParity ps.2 0
              let s6 : HState := { s5 with parity_hits := s5.parity_hits + 1 }
              let s7 : HState :=
                if 8 ≤ s6.parity_hits then { s6 with parity_limit := 3 }
                else s6
              harrington_try_return s7 C true true
            else
              let s5 := ps.2
              if 1 ≤ s5.more_coop then harrington_try_return s5 C true true
              else if turn < 37 then
                harrington_try_return s5 (lastA o) true true
              else if turn = 37 then
                harrington_try_return
                  { s5 with more_coop := 2, generous_n_turns_ago := 1 }
                  D false false
              else if s5.burned ∨ r > s5.prob then
                harrington_try_return s5 (lastA o) true true
              else
                harrington_try_return
                  { s5 with prob := s5.prob + 1/20, more_coop := 2,
                            generous_n_turns_ago := 1 }
                  D false false

/-- Round-by-round simulation driver: feed the step function the growing
histories; `ms` is the list of opponent moves (revealed one round at a
time, after the simultaneous decision), `rs` the per-round draws
(default 1/2 when exhausted).  Returns the own action sequence and the
final private state. -/
def runSim {σ : Type} (f : σ → List Action → List Action → ℚ → Action × σ) :
    σ → List Action → List Action → List Action → List ℚ → List Action × σ
  | s, _, _, [], _ => ([], s)
  | s, h, o, x :: xs, rs =>
      let step := f s h o (rs.headD (1/2))
      let rest := runSim f step.2 (h ++ [step.1]) (o ++ [x]) xs rs.tail
      (step.1 :: rest.1, rest.2)


/-- Kluepfel step with the (unreachable) fall-through defaulted, for use
in the simulation driver. -/
def kluepfel_step (s : KState) (h o : List Action) (r : ℚ) : Action × KState :=
  let res := kluepfel_strategy s h o r
  (res.1.getD D, res.2)

/-- Borufsen against an opponent that defects on every one of n rounds
(Borufsen is deterministic, so no draws are consumed). -/
def borufsenRunAllD (n : ℕ) : List Action × BState :=
  runSim (fun s h o _ => borufsen_strategy s h o) bInit [] []
    (List.replicate n D) []

/-- Kluepfel against an opponent that defects on every one of n rounds,
with every draw fixed to 1/2. -/
def kluepfelRunAllD (n : ℕ) : List Action × KState :=
  runSim kluepfel_step kInit [] [] (List.replicate n D) []

/-- Tester simulation against a given opponent move sequence. -/
def testerRun (os : List Action) : List Action × Bool :=
  runSim (fun s h o _ => tester_strategy s h o) false [] [] os []

/-- The action Tester picks at round |os| + 1, after the opponent played
the moves os on rounds 1..|os|. -/
def testerNext (os : List Action) : Action :=
  (tester_strategy (testerRun os).2 (testerRun os).1 os).1

/-- The action Tester picks at round k against an always-cooperating
opponent. -/
def testerVsAllC (k : ℕ) : Action :=
  testerNext (List.replicate (k - 1) C)

/-- Weiner simulation against a given opponent move sequence. -/
def weinerRun (os : List Action) : List Action × WState :=
  runSim (fun s h o _ => weiner_strategy s h o) wInit [] [] os []

/-- The action Weiner picks at round |os| + 1. -/
def weinerNext (os : List Action) : Action :=
  (weiner_strategy (weinerRun os).2 (weinerRun os).1 os).1

/-- The pre-override choice (forgiveness / Tit-for-Tat logic) of the
same round-|os|+1 Weiner call: the argument the source passes to
try_return. -/
def weinerChosenNext (os : List Action) : Action :=
  if os.length = 0 then C
  else (weiner_core (weiner_buf_update (weinerRun os).2 os) (weinerRun os).1 os).1

/-- The lagged defection count of claim C6: among the opponent moves up
to round t-2 (that is, all of os except its last element), the number
of defections in the trailing window of twelve. -/
def weinerLaggedDefects (os : List Action) : ℕ :=
  ((os.dropLast).drop (os.dropLast.length - 12)).count D

/-- Ring model: fold a list of written values through a 12-slot buffer
with a wrapping cursor, exactly as Weiner writes last_twelve. -/
def ringOf (w : List ℕ) : (Fin 12 → ℕ) × Fin 12 :=
  w.foldl (fun p x => (Function.update p.1 p.2 x, p.2 + 1)) (fun _ => 0, 0)

/-- Value left in slot j of the ring after the writes w: the most recent
write whose (0-based) position is congruent to j mod 12, default 0.
lastValAux walks the reversed write list; m is the length of the
remaining prefix, so the head has position m - 1. -/
def lastValAux : List ℕ → ℕ → Fin 12 → ℕ
  | [], _, _ => 0
  | x :: rest, m, j => if (((m - 1 : ℕ) : Fin 12)) = j then x
      else lastValAux rest (m - 1) j

def lastVal (w : List ℕ) (j : Fin 12) : ℕ :=
  lastValAux w.reverse w.length j

/-- The 0/1 defection indicator written into the Weiner buffer. -/
def dInd (a : Action) : ℕ :=
  if a = D then 1 else 0

/-- The write sequence that has gone through the Weiner ring buffer by
the time try_return runs in the round-|os|+1 call: the defection
indicators of every opponent move except the most recent one. -/
def weinerWrites (os : List Action) : List ℕ :=
  (os.dropLast).map dInd

/-- The claim-side randomness predicate of claim C1, following the
claim wording exactly: first cell of move_history over (t-2) below 0.8,
recorded defection rate within the closed interval [0.25, 0.75], and
the chi-squared statistic with terms whose expected count is LESS THAN
ONE excluded (so terms with expected count exactly 1 are included,
where the source keeps only terms strictly greater than 1) at most 3. -/
def hChiTermClaimed (rowsum colsum obs : ℕ) (denom : ℚ) : ℚ :=
  let expct : ℚ := ((rowsum : ℚ) * (colsum : ℚ)) / denom
  if expct ≥ 1 then (expct - (obs : ℚ)) ^ 2 / expct else 0

def harrington_chi_claimed (m : MoveHist) (denom : ℚ) : ℚ :=
  hChiTermClaimed (mhRow m 0) (mhCol m 0) m.m00 denom
    + hChiTermClaimed (mhRow m 0) (mhCol m 1) m.m01 denom
    + hChiTermClaimed (mhRow m 1) (mhCol m 0) m.m10 denom
    + hChiTermClaimed (mhRow m 1) (mhCol m 1) m.m11 denom
    + hChiTermClaimed (mhRow m 2) (mhCol m 0) m.m20 denom
    + hChiTermClaimed (mhRow m 2) (mhCol m 1) m.m21 denom
    + hChiTermClaimed (mhRow m 3) (mhCol m 0) m.m30 denom
    + hChiTermClaimed (mhRow m 3) (mhCol m 1) m.m31 denom

def harrington_detect_random_claimed (m : MoveHist) (rd turn : ℕ) : Bool :=
  decide ((m.m00 : ℚ) / ((turn : ℚ) - 2) < 4/5)
    && decide (1/4 ≤ (rd : ℚ) / ((turn : ℚ) - 2))
    && decide ((rd : ℚ) / ((turn : ℚ) - 2) ≤ 3/4)
    && decide (harrington_chi_claimed m ((turn : ℚ) - 2) ≤ 3)

/-- The chi-squared statistic of the source written as a double Finset
sum over the matrix cells (used to state the corrected claim C1 in a
form independent of the unrolled loop). -/
def harrington_chi_spec (m : MoveHist) (denom : ℚ) : ℚ :=
  ∑ i : Fin 4, ∑ j : Fin 2,
    hChiTerm (mhRow m i) (mhCol m j) (mhGet m i j) denom

/-- Harrington simulation against a given opponent move sequence (no
draw is consumed before turn 38, so draws default to 1/2). -/
def harringtonRun (os : List Action) : List Action × HState :=
  runSim harrington_strategy hInit [] [] os []

/-- Opponent move sequence (rounds 1..29) reaching, at the turn-30
randomness test of Harrington, a move_history matrix with a cell of
expected count exactly one: defections on rounds 4, 8, 9, 14, 15, 28
and 29, cooperation elsewhere. -/
def harringtonCexOpp : List Action :=
  [C, C, C, D, C, C, C, D, D, C, C, C, C, D, D,
   C, C, C, C, C, C, C, C, C, C, C, C, D, D]

/-- The Harrington state reached before the turn-30 call against
harringtonCexOpp. -/
def harringtonCexState : HState :=
  (harringtonRun harringtonCexOpp).2

/-- The same state after the in-call move_history update of turn 30. -/
def harringtonCexRecorded : HState :=
  harrington_record harringtonCexState harringtonCexOpp

/-- Opponent moves (rounds 1-9) and draws for the Tranquilizer
counterexample trace of claim C3. -/
def tranqCexOpp : List Action := [C, C, C, C, C, C, D, C, D]

def tranqCexDraws : List ℚ :=
  [1/2, 1/2, 1/2, 1/2, 1/2, 1/2, 1/2, 9/10, 1/2]

/-- Tranquilizer simulation of rounds 1-9 of the counterexample trace. -/
def tranqCexRun : List Action × TState :=
  runSim tranquilizer_strategy tInit [] [] tranqCexOpp tranqCexDraws

/-- The same simulation stopped after round 7. -/
def tranqCexRun7 : List Action × TState :=
  runSim tranquilizer_strategy tInit [] [] (tranqCexOpp.take 7)
    (tranqCexDraws.take 7)

/-- The round-8 Tranquilizer call of the counterexample trace (draw
9/10). -/
def tranqCexStep8 : Action × TState :=
  tranquilizer_strategy tranqCexRun7.2 tranqCexRun7.1 (tranqCexOpp.take 7)
    (9/10)

/-- The round-10 Tranquilizer call of the counterexample trace (draw
9/10), two rounds after the round-8 defection. -/
def tranqCexStep10 : Action × TState :=
  tranquilizer_strategy tranqCexRun.2 tranqCexRun.1 tranqCexOpp (9/10)

/-- Concrete histories for the Champion witness: 25 own moves, opponent
with 13 defections among 25 moves, most recent move a defection. -/
def champWitH : List Action := List.replicate 25 C

def champWitO : List Action := List.replicate 12 C ++ List.replicate 13 D

section Theorems

/-- In a two-action game the cooperation and defection counts of a
history sum to its length. -/
theorem count_C_add_count_D (l : List Action) :
    l.count C + l.count D = l.length := by
  induction l with
  | nil => rfl
  | cons a t ih =>
      cases a <;> simp [List.count_cons] <;> omega

/-- Claim C4: at round 1, with both histories empty, every strategy in
the file returns a fixed constant action that does not depend on the
random draw r (nor on the externally supplied payoff function g):
Tester and Gladstein defect, the other eleven cooperate.  Two runs with
different random sources therefore produce the same first action. -/
theorem round_one_deterministic (r : ℚ) (g : Action → Action → ℚ × ℚ) :
    (tester_strategy false [] []).1 = D ∧
    (gladstein_strategy true [] []).1 = D ∧
    champion_strategy [] [] r = C ∧
    eatherley_strategy [] r = C ∧
    (tranquilizer_strategy tInit [] [] r).1 = C ∧
    moregrofman_strategy [] [] = C ∧
    (kluepfel_strategy kInit [] [] r).1 = some C ∧
    (borufsen_strategy bInit [] []).1 = C ∧
    cave_strategy [] [] r = C ∧
    wmadams_strategy [] [] r = C ∧
    (gk_strategy g gkInit [] []).1 = C ∧
    (weiner_strategy wInit [] []).1 = C ∧
    (harrington_strategy hInit [] [] r).1 = C := by
  exact ⟨rfl, rfl, rfl, rfl, rfl, rfl, rfl, rfl, rfl, rfl, rfl, rfl, rfl⟩

/-- Claim C8: for GraaskampKatzen, Defect mode is absorbing: a call in
Defect mode returns Defect and leaves the state untouched, and no call
ever moves the mode from Defect back to Normal. -/
theorem gk_defect_mode_absorbing :
    ∀ (g : Action → Action → ℚ × ℚ) (s : GKState) (h o : List Action),
      (s.mode = GKMode.Defect → gk_strategy g s h o = (D, s)) ∧
      ((gk_strategy g s h o).2.mode = GKMode.Normal →
        s.mode = GKMode.Normal) := by
  intro g s h o
  constructor
  · intro hm
    simp [gk_strategy, hm]
  · intro hm
    cases hsm : s.mode with
    | Normal => rfl
    | Defect => simp [gk_strategy, hsm] at hm

/-- Witness for gk_defect_mode_absorbing at a concrete Defect-mode
state. -/
theorem gk_defect_mode_absorbing_witness :
    gk_strategy gameScore ⟨0, GKMode.Defect⟩ [C] [D] =
      (D, ⟨0, GKMode.Defect⟩) :=
  (gk_defect_mode_absorbing gameScore ⟨0, GKMode.Defect⟩ [C] [D]).1 rfl

/-- Claim C9: Kluepfel.strategy is total at the public interface: for
every state, pair of histories and draw it returns an action; the final
probability cascade is exhaustive, so the Python fall-off-the-end value
(none in this embedding) is unreachable. -/
theorem kluepfel_strategy_total :
    ∀ (s : KState) (h o : List Action) (r : ℚ),
      ((kluepfel_strategy s h o r).1).isSome = true := by
  intro s h o r
  unfold kluepfel_strategy
  dsimp only
  split_ifs <;> try rfl
  all_goals try simp_all
  all_goals (cases hla : lastA o <;> simp_all)

/-- Claim C2 (amended): the Kluepfel randomness classification is first
evaluated at round 28, the first round at which strictly more than 26
rounds are complete (the source guard is len(history) > 26); whenever
the classification inequality holds there, the strategy defects. -/
theorem kluepfel_random_classification_defects
    (s : KState) (h o : List Action) (r : ℚ)
    (hl : 26 < h.length)
    (hd : kluepfel_detects_random (kluepfel_update s h o) = true) :
    (kluepfel_strategy s h o r).1 = some D := by
  unfold kluepfel_strategy
  simp [kluepfel_random_gate, hl, hd]

/-- Witness for kluepfel_random_classification_defects at a concrete
27-round history. -/
theorem kluepfel_random_classification_defects_witness :
    26 < (List.replicate 27 (C : Action)).length ∧
    kluepfel_detects_random
      (kluepfel_update kInit (List.replicate 27 C) (List.replicate 27 C)) =
      true ∧
    (kluepfel_strategy kInit (List.replicate 27 C) (List.replicate 27 C)
      (1/2)).1 = some D :=
  ⟨by decide, by decide,
   kluepfel_random_classification_defects kInit (List.replicate 27 C)
     (List.replicate 27 C) (1/2) (by decide) (by decide)⟩

/-- Claim C2 counterexample: against an opponent that defects on every
round, the round-27 Kluepfel call sees an own history of length 26, and
the source guard len(history) > 26 is false there, so the
randomness-classification inequality is not evaluated at round 27 (it
first becomes evaluable at round 28, history length 27); the round-27
defection comes from the last-three-moves echo rule instead. -/
theorem kluepfel_random_check_round27_cex :
    (kluepfelRunAllD 26).1.length = 26 ∧
    kluepfel_random_gate (kluepfelRunAllD 26).1.length = false ∧
    kluepfel_random_gate 27 = true ∧
    (kluepfel_strategy (kluepfelRunAllD 26).2 (kluepfelRunAllD 26).1
      (List.replicate 26 D) (1/2)).1 = some D := by
  refine ⟨by decide, by decide, by decide, by decide⟩

/-- Claim C5: against an opponent that defects on every round, the
round-27 Borufsen mode evaluation sees fewer than 3 recorded
cooperations, enters Defect mode, and the strategy returns Defect on
every round from 27 through 51 (the next re-evaluation being at round
52). -/
theorem borufsen_all_defector_defect_mode :
    ((borufsenRunAllD 26).2.cd_counts + (borufsenRunAllD 26).2.cc_counts
      < 3) ∧
    (borufsenRunAllD 27).2.mode = BMode.Defect ∧
    (borufsenRunAllD 51).1.drop 26 = List.replicate 25 D := by
  refine ⟨by decide, by decide, by decide⟩

/-- If the Tranquilizer cool-down counter stands at 1, the update at the
start of the next call moves it to 2. -/
theorem tranquilizer_update_state_one_to_two
    (t : TState) (h o : List Action)
    (ht : t.num_turns_after_good_defection = 1) :
    (tranquilizer_update_state t h o).num_turns_after_good_defection = 2 := by
  unfold tranquilizer_update_state
  split_ifs <;> simp_all

/-- Claim C3 (amended): whenever Tranquilizer defects under the >=2.25
average-payoff branch (the only transition that sets the cool-down
counter num_turns_after_good_defection to 1), its action on the next
round is Cooperate, for every opponent behavior and every draw; two
rounds later the counter has already returned to 0 and the action is
unconstrained. -/
theorem tranquilizer_cooldown_next_round
    (s : TState) (h o : List Action) (r : ℚ)
    (h2 o2 : List Action) (r2 : ℚ)
    (_hdef : (tranquilizer_strategy s h o r).1 = D)
    (hnum : (tranquilizer_strategy s h o r).2.num_turns_after_good_defection
      = 1)
    (h2ne : h2 ≠ []) :
    (tranquilizer_strategy ((tranquilizer_strategy s h o r).2) h2 o2 r2).1
      = C := by
  set s1 := (tranquilizer_strategy s h o r).2 with hs1
  have h2u := tranquilizer_update_state_one_to_two s1 h2 o2 hnum
  unfold tranquilizer_strategy
  rw [if_neg h2ne]
  simp [h2u]

/-- Witness for tranquilizer_cooldown_next_round: the round-8 defection
of the concrete trace is followed by a forced cooperation at round 9. -/
theorem tranquilizer_cooldown_next_round_witness :
    tranqCexStep8.1 = D ∧
    tranqCexStep8.2.num_turns_after_good_defection = 1 ∧
    (tranqCexRun7.1 ++ [D] : List Action) ≠ [] ∧
    (tranquilizer_strategy
      (tranquilizer_strategy tranqCexRun7.2 tranqCexRun7.1
        (tranqCexOpp.take 7) (9/10)).2
      (tranqCexRun7.1 ++ [D]) (tranqCexOpp.take 8) (1/2)).1 = C :=
  ⟨by with_unfolding_all decide, by with_unfolding_all decide,
   by with_unfolding_all decide,
   tranquilizer_cooldown_next_round tranqCexRun7.2 tranqCexRun7.1
     (tranqCexOpp.take 7) (9/10) (tranqCexRun7.1 ++ [D])
     (tranqCexOpp.take 8) (1/2) (by with_unfolding_all decide)
     (by with_unfolding_all decide) (by with_unfolding_all decide)⟩

/-- Claim C3 counterexample: a concrete trace where Tranquilizer defects
under the >=2.25 branch at round 8 (the returned action is D and the
post-state counter is 1), cooperates at round 9, but defects again at
round 10 — so the actions of the next two rounds are not both
Cooperate. -/
theorem tranquilizer_cooldown_two_rounds_cex :
    tranqCexRun7.1 = [C, C, C, C, C, C, C] ∧
    tranqCexStep8.1 = D ∧
    tranqCexStep8.2.num_turns_after_good_defection = 1 ∧
    tranqCexRun.1 = [C, C, C, C, C, C, C, D, C] ∧
    tranqCexStep10.1 = D := by
  refine ⟨by with_unfolding_all decide, by with_unfolding_all decide,
    by with_unfolding_all decide, by with_unfolding_all decide,
    by with_unfolding_all decide⟩

/-- The simulation produces one own action per opponent move. -/
theorem runSim_length {σ : Type}
    (f : σ → List Action → List Action → ℚ → Action × σ) :
    ∀ (ms : List Action) (s : σ) (h o : List Action) (rs : List ℚ),
      (runSim f s h o ms rs).1.length = ms.length := by
  intro ms
  induction ms with
  | nil => intro s h o rs; rfl
  | cons x xs ih => intro s h o rs; simp [runSim, ih]

/-- Unfold one round off the end of a simulation. -/
theorem runSim_snoc {σ : Type}
    (f : σ → List Action → List Action → ℚ → Action × σ) :
    ∀ (ms : List Action) (x : Action) (s : σ) (h o : List Action)
      (rs : List ℚ),
      runSim f s h o (ms ++ [x]) rs =
        ((runSim f s h o ms rs).1 ++
            [(f (runSim f s h o ms rs).2 (h ++ (runSim f s h o ms rs).1)
               (o ++ ms) (rs.getD ms.length (1/2))).1],
         (f (runSim f s h o ms rs).2 (h ++ (runSim f s h o ms rs).1)
            (o ++ ms) (rs.getD ms.length (1/2))).2) := by
  intro ms
  induction ms with
  | nil =>
      intro x s h o rs
      cases rs <;> simp [runSim, List.getD]
  | cons y ys ih =>
      intro x s h o rs
      simp only [List.cons_append, runSim, List.append_eq]
      rw [ih]
      cases rs <;>
        simp [runSim, List.getD, List.append_assoc, List.singleton_append,
          List.cons_append]

/-- The last element of a list with an element appended. -/
theorem lastA_append_singleton (l : List Action) (a : Action) :
    lastA (l ++ [a]) = a := by
  simp [lastA, List.getD_append_right]

/-- The last element of a list of cooperations is a cooperation. -/
theorem lastA_allC :
    ∀ (l : List Action), (∀ x ∈ l, x = C) → lastA l = C := by
  intro l
  induction l with
  | nil => intro _; rfl
  | cons a t ih =>
      intro hall
      cases t with
      | nil => simpa [lastA] using hall a (by simp)
      | cons b t2 =>
          have hstep : lastA (a :: b :: t2) = lastA (b :: t2) := by
            simp [lastA, List.getD_cons_succ]
          rw [hstep]
          exact ih fun x hx => hall x (List.mem_cons_of_mem a hx)

/-- Claim C7: Champion cooperates on rounds 1 through 10 (own history
shorter than 10), mirrors the previous opponent move on rounds 11
through 25, and from round 26 onward defects only if the opponent just
defected and its cooperation rate does not exceed 0.6 (defection
proportion at least 0.4); in every other case it cooperates. -/
theorem champion_phases (h o : List Action) (r : ℚ)
    (hlen : h.length = o.length) :
    (h.length < 10 → champion_strategy h o r = C) ∧
    (10 ≤ h.length → h.length < 25 → champion_strategy h o r = lastA o) ∧
    (25 ≤ h.length →
      (champion_strategy h o r = D →
        lastA o = D ∧ (o.count C : ℚ) / (o.length : ℚ) ≤ 3/5) ∧
      ((lastA o = C ∨ (3/5 : ℚ) < (o.count C : ℚ) / (o.length : ℚ)) →
        champion_strategy h o r = C)) := by
  have hcnt : (o.count C : ℚ) + (o.count D : ℚ) = (o.length : ℚ) := by
    exact_mod_cast congrArg (Nat.cast : ℕ → ℚ) (count_C_add_count_D o)
  refine ⟨?_, ?_, ?_⟩
  · intro hlt
    simp only [champion_strategy]
    by_cases h0 : h.length = 0
    · rw [if_pos h0]
    · rw [if_neg h0, if_pos hlt]
  · intro h10 h25
    simp only [champion_strategy]
    rw [if_neg (by omega), if_neg (by omega), if_pos h25]
  · intro h25
    have hlen0 : 0 < o.length := by omega
    have hposq : (0 : ℚ) < (o.length : ℚ) := by exact_mod_cast hlen0
    constructor
    · intro hD
      simp only [champion_strategy] at hD
      rw [if_neg (by omega), if_neg (by omega), if_neg (by omega)] at hD
      split_ifs at hD with h4 h5
      · refine ⟨h4, ?_⟩
        have hmax : (2/5 : ℚ) ≤ (o.count D : ℚ) / (o.length : ℚ) :=
          le_trans (le_max_left _ _) h5
        rw [le_div_iff hposq] at hmax
        rw [div_le_iff hposq]
        linarith
    · intro hOr
      simp only [champion_strategy]
      rw [if_neg (by omega), if_neg (by omega), if_neg (by omega)]
      split_ifs with h4 h5
      · exfalso
        have hmax : (2/5 : ℚ) ≤ (o.count D : ℚ) / (o.length : ℚ) :=
          le_trans (le_max_left _ _) h5
        rw [le_div_iff hposq] at hmax
        rcases hOr with hC | hgt
        · rw [hC] at h4; exact absurd h4 (by simp)
        · rw [lt_div_iff hposq] at hgt
          linarith
      all_goals rfl

/-- Witness for champion_phases at concrete 25-round histories. -/
theorem champion_phases_witness :
    champWitH.length = champWitO.length ∧
    ((champWitH.length < 10 →
       champion_strategy champWitH champWitO (1/2) = C) ∧
     (10 ≤ champWitH.length → champWitH.length < 25 →
       champion_strategy champWitH champWitO (1/2) = lastA champWitO) ∧
     (25 ≤ champWitH.length →
       (champion_strategy champWitH champWitO (1/2) = D →
         lastA champWitO = D ∧
         (champWitO.count C : ℚ) / (champWitO.length : ℚ) ≤ 3/5) ∧
       ((lastA champWitO = C ∨
          (3/5 : ℚ) < (champWitO.count C : ℚ) / (champWitO.length : ℚ)) →
         champion_strategy champWitH champWitO (1/2) = C))) :=
  ⟨by decide, champion_phases champWitH champWitO (1/2) (by decide)⟩

/-- The Finset-sum form of the Harrington chi-squared statistic agrees
with the unrolled loop of the source. -/
theorem harrington_chi_spec_eq (m : MoveHist) (denom : ℚ) :
    harrington_chi_spec m denom = harrington_chi m denom := by
  simp [harrington_chi_spec, harrington_chi, Fin.sum_univ_four,
    Fin.sum_univ_two, mhGet]
  ring

/-- Claim C1 (amended): Harrington detect_random classifies the opponent
as random if and only if all three checks pass: the first cell of the
4x2 move_history divided by (t-2) is below 0.8, the recorded defection
rate lies in the closed interval [0.25, 0.75], and the modified
chi-squared statistic — expected counts from row/column marginals
divided by (t-2), with terms whose expected count is AT MOST 1 excluded
(the source keeps only terms strictly greater than 1) — is at most 3. -/
theorem harrington_detect_random_iff (m : MoveHist) (rd turn : ℕ)
    (_ht : 2 < turn) :
    (harrington_detect_random m rd turn = true ↔
      ((m.m00 : ℚ) / ((turn : ℚ) - 2) < 4/5 ∧
       1/4 ≤ (rd : ℚ) / ((turn : ℚ) - 2) ∧
       (rd : ℚ) / ((turn : ℚ) - 2) ≤ 3/4 ∧
       harrington_chi_spec m ((turn : ℚ) - 2) ≤ 3)) := by
  clear _ht
  rw [harrington_chi_spec_eq]
  simp only [harrington_detect_random]
  split_ifs with h1 h2 h3
  · simp only [Bool.false_eq_true, false_iff]
    rintro ⟨ha, -, -, -⟩
    exact absurd ha (not_lt.mpr h1)
  · simp only [Bool.false_eq_true, false_iff]
    rintro ⟨-, hb, hc, -⟩
    rcases h2 with h2 | h2
    · exact absurd hb (not_le.mpr h2)
    · exact absurd hc (not_le.mpr h2)
  · simp only [Bool.false_eq_true, false_iff]
    rintro ⟨-, -, -, hd⟩
    exact absurd hd (not_le.mpr h3)
  · simp only [true_iff]
    rw [not_or] at h2
    exact ⟨not_le.mp h1, not_lt.mp h2.1, not_lt.mp h2.2, not_lt.mp h3⟩

/-- Witness for harrington_detect_random_iff at the all-zero matrix. -/
theorem harrington_detect_random_iff_witness :
    2 < 30 ∧
    (harrington_detect_random mhZero 0 30 = true ↔
      ((mhZero.m00 : ℚ) / (((30 : ℕ) : ℚ) - 2) < 4/5 ∧
       1/4 ≤ ((0 : ℕ) : ℚ) / (((30 : ℕ) : ℚ) - 2) ∧
       ((0 : ℕ) : ℚ) / (((30 : ℕ) : ℚ) - 2) ≤ 3/4 ∧
       harrington_chi_spec mhZero (((30 : ℕ) : ℚ) - 2) ≤ 3)) :=
  ⟨by decide, harrington_detect_random_iff mhZero 0 30 (by decide)⟩

/-- Claim C1 counterexample: a reachable Harrington state (29 recorded
rounds of Tit-for-Tat play against harringtonCexOpp) at the turn-30
randomness test where the source classifies the opponent as random
while the claim-side three checks, whose statistic keeps terms with
expected count exactly 1, reject it: cell (1,1) of the matrix has
expected count exactly 1 and observed count 3, adding 4 to the
statistic.  The turn-30 call indeed defects and enters Defect mode. -/
theorem harrington_detect_random_claim_cex :
    harrington_detect_random harringtonCexRecorded.move_history
      harringtonCexRecorded.recorded_defects 30 = true ∧
    harrington_detect_random_claimed harringtonCexRecorded.move_history
      harringtonCexRecorded.recorded_defects 30 = false ∧
    (harrington_strategy harringtonCexState (harringtonRun harringtonCexOpp).1
      harringtonCexOpp (1/2)).1 = D ∧
    (harrington_strategy harringtonCexState (harringtonRun harringtonCexOpp).1
      harringtonCexOpp (1/2)).2.mode = HMode.Defect := by
  refine ⟨?_, ?_, ?_, ?_⟩ <;> with_unfolding_all decide

/-- A Tester call in non-TFT mode against a cooperating opponent leaves
the is_TFT flag low. -/
theorem tester_strategy_allC_flag (h t : List Action)
    (hall : ∀ x ∈ t, x = C) :
    (tester_strategy false h t).2 = false := by
  unfold tester_strategy
  by_cases ht : t = []
  · simp [ht]
  · rw [if_neg ht]
    simp only [Bool.false_eq_true, if_false]
    rw [if_neg (by rw [lastA_allC t hall]; simp)]
    split_ifs <;> rfl

/-- Against an opponent that has not defected, the Tester is_TFT flag
stays low through any number of rounds. -/
theorem testerRun_allC_flag :
    ∀ (os : List Action), (∀ x ∈ os, x = C) → (testerRun os).2 = false := by
  intro os
  induction os using List.reverseRecOn with
  | nil => intro _; rfl
  | append_singleton t x ih =>
      intro hall
      unfold testerRun
      rw [runSim_snoc]
      dsimp only
      rw [List.nil_append]
      have hts : (testerRun t).2 = false :=
        ih fun y hy => hall y (List.mem_append_left _ hy)
      rw [show (runSim (fun s h o _ => tester_strategy s h o) false [] [] t
            []).2 = (testerRun t).2 from rfl, hts]
      exact tester_strategy_allC_flag _ t
        fun y hy => hall y (List.mem_append_left _ hy)

/-- One alternation step of Tester against a full cooperator: from round
4 on, the action is the flip of the previous own action. -/
theorem testerVsAllC_step (n : ℕ) (hn : 3 ≤ n) :
    testerNext (List.replicate n C) =
      (testerNext (List.replicate (n - 1) C)).flip := by
  have hall : ∀ x ∈ List.replicate n C, x = C :=
    fun x hx => List.eq_of_mem_replicate hx
  have hflag := testerRun_allC_flag (List.replicate n C) hall
  have hlen : (testerRun (List.replicate n C)).1.length = n := by
    unfold testerRun; rw [runSim_length]; simp
  have hrep : List.replicate n C = List.replicate (n - 1) C ++ [C] := by
    conv_lhs => rw [show n = (n - 1) + 1 by omega, List.replicate_succ']
  have hsplit : (testerRun (List.replicate n C)).1 =
      (testerRun (List.replicate (n - 1) C)).1 ++
        [testerNext (List.replicate (n - 1) C)] := by
    conv_lhs => rw [hrep]
    unfold testerRun
    rw [runSim_snoc]
    simp [testerNext, testerRun]
  conv_lhs => unfold testerNext
  rw [hflag]
  unfold tester_strategy
  rw [if_neg (by
    intro he
    have hle := congrArg List.length he
    simp at hle
    omega)]
  simp only [Bool.false_eq_true, if_false]
  rw [if_neg (by rw [lastA_allC _ hall]; simp)]
  rw [if_neg (by rw [hlen]; omega)]
  rw [hsplit, lastA_append_singleton]

/-- Claim C10: whenever the opponent has not yet defected, Tester
cooperates unconditionally on rounds 2 and 3 (own history length 1 or
2); against a full cooperator the opening sequence is D, C, C and
strict cooperate/defect alternation (flip of the previous own move)
begins only at round 4. -/
theorem tester_early_coop_and_alternation :
    (∀ os : List Action, (∀ x ∈ os, x = C) →
       (os.length = 1 ∨ os.length = 2) → testerNext os = C) ∧
    testerVsAllC 1 = D ∧ testerVsAllC 2 = C ∧ testerVsAllC 3 = C ∧
    (∀ k, 4 ≤ k → testerVsAllC k = (testerVsAllC (k - 1)).flip) := by
  refine ⟨?_, by decide, by decide, by decide, ?_⟩
  · intro os hall hlen12
    unfold testerNext
    rw [testerRun_allC_flag os hall]
    unfold tester_strategy
    rw [if_neg (by
      intro he
      rw [he] at hlen12
      simp at hlen12)]
    simp only [Bool.false_eq_true, if_false]
    rw [if_neg (by rw [lastA_allC os hall]; simp)]
    rw [if_pos (by
      unfold testerRun
      rw [runSim_length]
      exact hlen12)]
  · intro k hk
    have hstep := testerVsAllC_step (k - 1) (by omega)
    simpa [testerVsAllC] using hstep

/-- Witness for tester_early_coop_and_alternation at round 2 and at the
first alternation round. -/
theorem tester_early_coop_and_alternation_witness :
    (∀ x ∈ ([C] : List Action), x = C) ∧
    (([C] : List Action).length = 1 ∨ ([C] : List Action).length = 2) ∧
    testerNext [C] = C ∧
    (4 ≤ 4) ∧ testerVsAllC 4 = (testerVsAllC (4 - 1)).flip :=
  ⟨by simp, by decide,
   tester_early_coop_and_alternation.1 [C] (by simp) (by decide),
   by decide,
   tester_early_coop_and_alternation.2.2.2.2 4 (by decide)⟩

/-- One write into the ring model. -/
theorem ringOf_snoc (w : List ℕ) (x : ℕ) :
    ringOf (w ++ [x]) =
      (Function.update (ringOf w).1 (ringOf w).2 x, (ringOf w).2 + 1) := by
  simp [ringOf, List.foldl_append]

/-- The ring cursor equals the number of writes mod 12. -/
theorem ringOf_idx :
    ∀ w : List ℕ, (ringOf w).2 = ((w.length : ℕ) : Fin 12) := by
  intro w
  induction w using List.reverseRecOn with
  | nil => simp [ringOf]
  | append_singleton w x ih =>
      rw [ringOf_snoc]
      simp [ih, Nat.cast_succ]

/-- The slot value after one more write. -/
theorem lastVal_snoc (w : List ℕ) (x : ℕ) (j : Fin 12) :
    lastVal (w ++ [x]) j =
      if ((w.length : ℕ) : Fin 12) = j then x else lastVal w j := by
  simp [lastVal, lastValAux, List.reverse_append]

/-- Slots that have never been written hold zero. -/
theorem lastValAux_zero (l : List ℕ) :
    ∀ (m : ℕ) (j : Fin 12), l.length = m → m ≤ j.val →
      lastValAux l m j = 0 := by
  induction l with
  | nil => intro m j _ _; rfl
  | cons x rest ih =>
      intro m j hlen hle
      have hm : m = rest.length + 1 := by simp at hlen; omega
      unfold lastValAux
      rw [if_neg ?_]
      · exact ih (m - 1) j (by omega) (by omega)
      · intro hc
        have hv : (m - 1) % 12 = j.val := by
          have hval := congrArg Fin.val hc
          simpa [Fin.val_natCast] using hval
        have hj12 : j.val < 12 := j.isLt
        omega

/-- A written slot holds the value of its most recent write: position
arithmetic for the reversed walk. -/
theorem lastValAux_getD (l : List ℕ) :
    ∀ (m : ℕ) (j : Fin 12), l.length = m → j.val < m →
      lastValAux l m j = l.getD ((m - 1 - j.val) % 12) 0 := by
  induction l with
  | nil => intro m j hlen hlt; simp at hlen; omega
  | cons x rest ih =>
      intro m j hlen hlt
      have hm : m = rest.length + 1 := by simp at hlen; omega
      have hj12 : j.val < 12 := j.isLt
      unfold lastValAux
      by_cases hc : ((m - 1 : ℕ) : Fin 12) = j
      · rw [if_pos hc]
        have hv : (m - 1) % 12 = j.val := by
          have hval := congrArg Fin.val hc
          simpa [Fin.val_natCast] using hval
        have hz : (m - 1 - j.val) % 12 = 0 := by omega
        rw [hz]
        rfl
      · rw [if_neg hc]
        have hv : ¬(m - 1) % 12 = j.val := by
          intro hmod
          apply hc
          apply Fin.ext
          simpa [Fin.val_natCast] using hmod
        have hne : j.val ≠ m - 1 := by
          intro he
          apply hv
          omega
        rw [ih (m - 1) j (by omega) (by omega)]
        have hstep : (m - 1 - j.val) % 12 = (m - 1 - 1 - j.val) % 12 + 1 := by
          omega
        rw [hstep, List.getD_cons_succ]

/-- The slot at the current cursor holds the write from twelve writes
ago (or zero during the first twelve writes). -/
theorem lastVal_at_idx (w : List ℕ) :
    lastVal w ((w.length : ℕ) : Fin 12) =
      if w.length < 12 then 0 else w.getD (w.length - 12) 0 := by
  by_cases hn : w.length < 12
  · rw [if_pos hn]
    unfold lastVal
    apply lastValAux_zero _ _ _ (by simp)
    simp only [Fin.val_natCast]
    omega
  · rw [if_neg hn]
    unfold lastVal
    rw [lastValAux_getD _ _ _ (by simp)
      (by simp only [Fin.val_natCast]; omega)]
    have h11 : (w.length - 1 - ((w.length : ℕ) : Fin 12).val) % 12 = 11 := by
      simp only [Fin.val_natCast]
      omega
    rw [h11]
    rw [List.getD_eq_getElem?_getD, List.getD_eq_getElem?_getD]
    rw [List.getElem?_reverse (by omega)]
    have hidx : w.length - 1 - 11 = w.length - 12 := by omega
    rw [hidx]

/-- The ring buffer is, slot by slot, the most recent write per slot. -/
theorem ringOf_fst :
    ∀ w : List ℕ, (ringOf w).1 = fun j => lastVal w j := by
  intro w
  induction w using List.reverseRecOn with
  | nil => funext j; rfl
  | append_singleton w x ih =>
      funext j
      rw [ringOf_snoc]
      dsimp only
      rw [ih, ringOf_idx, lastVal_snoc, Function.update_apply]
      by_cases hj : ((w.length : ℕ) : Fin 12) = j
      · rw [if_pos hj, if_pos hj.symm]
      · rw [if_neg (Ne.symm hj), if_neg hj]

/-- The ring buffer total is the sum of the last twelve writes. -/
theorem sum_lastVal (w : List ℕ) :
    (∑ j : Fin 12, lastVal w j) = (w.drop (w.length - 12)).sum := by
  induction w using List.reverseRecOn with
  | nil => simp [lastVal, lastValAux]
  | append_singleton w x ih =>
      have hup : ∀ j, lastVal (w ++ [x]) j =
          Function.update (fun j => lastVal w j) ((w.length : ℕ) : Fin 12) x
            j := by
        intro j
        rw [lastVal_snoc, Function.update_apply]
        by_cases hj : ((w.length : ℕ) : Fin 12) = j
        · rw [if_pos hj, if_pos hj.symm]
        · rw [if_neg hj, if_neg (Ne.symm hj)]
      rw [Finset.sum_congr rfl fun j _ => hup j]
      rw [Finset.sum_update_of_mem (Finset.mem_univ _)]
      have hsplit : (∑ j : Fin 12, lastVal w j) =
          lastVal w ((w.length : ℕ) : Fin 12) +
            ∑ j ∈ Finset.univ \ {((w.length : ℕ) : Fin 12)},
              lastVal w j := by
        rw [← Finset.erase_eq]
        exact (Finset.add_sum_erase Finset.univ _ (Finset.mem_univ _)).symm
      rw [lastVal_at_idx] at hsplit
      by_cases hn : w.length < 12
      · rw [if_pos hn] at hsplit
        simp only [List.length_append, List.length_singleton]
        have hd1 : w.length + 1 - 12 = 0 := by omega
        have hd0 : w.length - 12 = 0 := by omega
        rw [hd1, List.drop_zero, List.sum_append, List.sum_singleton]
        rw [hd0, List.drop_zero] at ih
        omega
      · rw [if_neg hn] at hsplit
        simp only [List.length_append, List.length_singleton]
        have hk : w.length + 1 - 12 = w.length - 11 := by omega
        have hda : (w ++ [x]).drop (w.length + 1 - 12) =
            w.drop (w.length - 11) ++ [x] := by
          rw [hk, List.drop_append_eq_append_drop]
          have hz : w.length - 11 - w.length = 0 := by omega
          rw [hz, List.drop_zero]
        rw [hda, List.sum_append, List.sum_singleton]
        rw [List.drop_eq_getElem_cons (by omega : w.length - 12 < w.length)]
          at ih
        simp only [List.sum_cons] at ih
        have hidx : w.length - 12 + 1 = w.length - 11 := by omega
        rw [hidx] at ih
        rw [List.getD_eq_getElem w 0 (by omega : w.length - 12 < w.length)]
          at hsplit
        omega

/-- The defection indicators of a window sum to its defection count. -/
theorem sum_map_dInd :
    ∀ l : List Action, (l.map dInd).sum = l.count D := by
  intro l
  induction l with
  | nil => rfl
  | cons a t ih =>
      cases a <;> simp [dInd, List.count_cons, ih] <;> omega

/-- The Weiner forgiveness core never touches the ring buffer. -/
theorem weiner_core_buffer (s : WState) (h o : List Action) :
    (weiner_core s h o).2.last_twelve = s.last_twelve ∧
    (weiner_core s h o).2.lt_index = s.lt_index := by
  unfold weiner_core
  dsimp only
  split_ifs <;> exact ⟨rfl, rfl⟩

/-- Splitting off the last element of the truncated history. -/
theorem dropLast_eq_dropLast_append_penA (os : List Action)
    (h2 : 2 ≤ os.length) :
    os.dropLast = os.dropLast.dropLast ++ [penA os] := by
  obtain ⟨os1, b, rfl⟩ : ∃ os1 b, os = os1 ++ [b] := by
    rcases List.eq_nil_or_concat os with hnil | ⟨l, a, rfl⟩
    · subst hnil; simp at h2
    · exact ⟨l, a, List.concat_eq_append l a⟩
  obtain ⟨l, a, rfl⟩ : ∃ l a, os1 = l ++ [a] := by
    rcases List.eq_nil_or_concat os1 with hnil | ⟨l, a, rfl⟩
    · subst hnil; simp at h2
    · exact ⟨l, a, List.concat_eq_append l a⟩
  rw [List.dropLast_concat, List.dropLast_concat]
  congr 1
  unfold penA
  simp only [List.length_append, List.length_singleton]
  have hidx : l.length + 1 + 1 - 2 = l.length := by omega
  rw [hidx, List.append_assoc,
    List.getD_append_right l ([a] ++ [b]) C l.length (le_refl l.length)]
  simp

/-- Appending the write of the next in-call buffer update to the ring. -/
theorem ring_write_step (os : List Action) (h2 : 2 ≤ os.length) :
    (ringOf ((os.dropLast).map dInd)).1 =
      Function.update (ringOf ((os.dropLast.dropLast).map dInd)).1
        (ringOf ((os.dropLast.dropLast).map dInd)).2
        (if penA os = D then 1 else 0) ∧
    (ringOf ((os.dropLast).map dInd)).2 =
      (ringOf ((os.dropLast.dropLast).map dInd)).2 + 1 := by
  have hsplit : (os.dropLast).map dInd =
      (os.dropLast.dropLast).map dInd ++ [if penA os = D then 1 else 0] := by
    conv_lhs => rw [dropLast_eq_dropLast_append_penA os h2]
    rw [List.map_append]
    rfl
  rw [hsplit, ringOf_snoc]
  exact ⟨rfl, rfl⟩

/-- For histories shorter than two moves both truncations are empty. -/
theorem dropLast_dropLast_of_short (os : List Action)
    (h2 : ¬ 2 ≤ os.length) : os.dropLast.dropLast = os.dropLast := by
  cases os with
  | nil => rfl
  | cons a t =>
      cases t with
      | nil => rfl
      | cons b u => simp at h2

/-- The round-|os|+1 Weiner call written without lets. -/
theorem weiner_strategy_expand (s : WState) (h o : List Action)
    (ho : ¬ o.length = 0) :
    weiner_strategy s h o =
      (weiner_try_return (weiner_core (weiner_buf_update s o) h o).2
         (weiner_core (weiner_buf_update s o) h o).1,
       (weiner_core (weiner_buf_update s o) h o).2) := by
  unfold weiner_strategy
  rw [if_neg ho]

/-- Ring invariant for the Weiner simulation: after the rounds recorded
in os, the last_twelve buffer and cursor agree with the ring model run
over the defection indicators of all but the last two opponent moves
(the in-call update of the next round then appends the indicator of the
second-to-last move). -/
theorem weinerRun_ring :
    ∀ os : List Action,
      (weinerRun os).2.last_twelve =
          (ringOf ((os.dropLast.dropLast).map dInd)).1 ∧
      (weinerRun os).2.lt_index =
          (ringOf ((os.dropLast.dropLast).map dInd)).2 := by
  intro os
  induction os using List.reverseRecOn with
  | nil => exact ⟨rfl, rfl⟩
  | append_singleton os x ih =>
      have hstate : (weinerRun (os ++ [x])).2 =
          (weiner_strategy (weinerRun os).2 (weinerRun os).1 os).2 := by
        unfold weinerRun
        rw [runSim_snoc]
        simp
      rw [hstate, List.dropLast_concat]
      by_cases hos : os.length = 0
      · have hosnil : os = [] := List.length_eq_zero.mp hos
        subst hosnil
        exact ih
      · rw [weiner_strategy_expand _ _ _ hos]
        dsimp only
        rw [(weiner_core_buffer _ _ _).1, (weiner_core_buffer _ _ _).2]
        unfold weiner_buf_update
        by_cases h2 : 2 ≤ os.length
        · rw [if_pos h2]
          dsimp only
          rw [ih.1, ih.2]
          exact ⟨(ring_write_step os h2).1.symm, (ring_write_step os h2).2.symm⟩
        · rw [if_neg h2]
          rw [dropLast_dropLast_of_short os h2] at ih
          exact ih

/-- The buffer the defective override reads at round |os|+1 is the ring
over the indicators of every opponent move except the most recent. -/
theorem weiner_bufupdate_ring (os : List Action) :
    (weiner_buf_update (weinerRun os).2 os).last_twelve =
      (ringOf (weinerWrites os)).1 := by
  unfold weiner_buf_update weinerWrites
  by_cases h2 : 2 ≤ os.length
  · rw [if_pos h2]
    dsimp only
    rw [(weinerRun_ring os).1, (weinerRun_ring os).2]
    exact (ring_write_step os h2).1.symm
  · rw [if_neg h2]
    rw [(weinerRun_ring os).1, dropLast_dropLast_of_short os h2]

/-- The ring buffer total at override time equals the lagged defection
count of claim C6. -/
theorem weiner_buffer_sum (os : List Action) :
    (∑ j : Fin 12, (weiner_buf_update (weinerRun os).2 os).last_twelve j) =
      weinerLaggedDefects os := by
  rw [weiner_bufupdate_ring, ringOf_fst]
  rw [show (∑ j : Fin 12, (fun j => lastVal (weinerWrites os) j) j) =
      ∑ j : Fin 12, lastVal (weinerWrites os) j from rfl]
  rw [sum_lastVal]
  unfold weinerWrites weinerLaggedDefects
  rw [List.length_map, ← List.map_drop, sum_map_dInd]

/-- Claim C6: at every round t at least 2, the Weiner defective override
counts opponent defections only in the lag-one window — the last_twelve
buffer holds the opponent moves up to round t-2, never the most recent
move — and the returned action is Defect exactly when that lagged count
reaches 5, overriding whatever the forgiveness / Tit-for-Tat core chose
that round. -/
theorem weiner_defective_override (os : List Action) (hos : os ≠ []) :
    weinerNext os =
      if 5 ≤ weinerLaggedDefects os then D else weinerChosenNext os := by
  have hlen : ¬ os.length = 0 := by
    intro h0
    exact hos (List.length_eq_zero.mp h0)
  unfold weinerNext
  rw [weiner_strategy_expand _ _ _ hlen]
  dsimp only
  unfold weiner_try_return
  rw [(weiner_core_buffer _ _ _).1]
  rw [weiner_buffer_sum]
  unfold weinerChosenNext
  rw [if_neg hlen]

/-- Witness for weiner_defective_override: thirteen straight opponent
defections put five or more defections in the lagged window, so round
14 is an override Defect. -/
theorem weiner_defective_override_witness :
    (List.replicate 13 (D : Action)) ≠ [] ∧
    weinerNext (List.replicate 13 D) =
      (if 5 ≤ weinerLaggedDefects (List.replicate 13 D) then D
       else weinerChosenNext (List.replicate 13 D)) :=
  ⟨by decide, weiner_defective_override (List.replicate 13 D) (by decide)⟩

/-- The decidable bound inside kluepfel_detects_random agrees with the
real-number formula of the source (lines 538-539),
x >= (x+y)/2 - 0.75*sqrt(x+y). -/
theorem kluepfel_random_bound_iff_sqrt (x y : ℕ) :
    kluepfel_random_bound x y = true ↔
      ((x : ℝ) + (y : ℝ)) / 2 - (3/4) * Real.sqrt ((x : ℝ) + (y : ℝ)) ≤
        (x : ℝ) := by
  have hb : (0 : ℝ) ≤ (x : ℝ) + (y : ℝ) := by positivity
  have hs0 : (0 : ℝ) ≤ Real.sqrt ((x : ℝ) + (y : ℝ)) := Real.sqrt_nonneg _
  have hsq : Real.sqrt ((x : ℝ) + (y : ℝ)) ^ 2 = (x : ℝ) + (y : ℝ) :=
    Real.sq_sqrt hb
  unfold kluepfel_random_bound
  rw [Bool.or_eq_true, decide_eq_true_eq, decide_eq_true_eq]
  constructor
  · rintro (hle | hsqle)
    · have hxr : ((x : ℝ) + (y : ℝ)) / 2 ≤ (x : ℝ) := by
        have hcast : ((x : ℝ) + (y : ℝ)) ≤ 2 * (x : ℝ) := by
          exact_mod_cast hle
        linarith
      linarith
    · by_cases hle : x + y ≤ 2 * x
      · have hxr : ((x : ℝ) + (y : ℝ)) / 2 ≤ (x : ℝ) := by
          have hcast : ((x : ℝ) + (y : ℝ)) ≤ 2 * (x : ℝ) := by
            exact_mod_cast hle
          linarith
        linarith
      · have hlt : 2 * x < x + y := by omega
        have hcast : ((x + y - 2 * x : ℕ) : ℝ) =
            (x : ℝ) + (y : ℝ) - 2 * (x : ℝ) := by
          push_cast [Nat.cast_sub (by omega : 2 * x ≤ x + y)]
          ring
        have hr : 4 * ((x : ℝ) + (y : ℝ) - 2 * (x : ℝ)) ^ 2 ≤
            9 * ((x : ℝ) + (y : ℝ)) := by
          have hq : ((4 * ((x + y - 2 * x : ℕ)) ^ 2 : ℕ) : ℝ) ≤
              ((9 * (x + y) : ℕ) : ℝ) := by
            exact_mod_cast hsqle
          push_cast at hq
          rw [hcast] at hq
          linarith
        nlinarith [sq_nonneg (Real.sqrt ((x : ℝ) + (y : ℝ)) * 2 -
          ((x : ℝ) + (y : ℝ) - 2 * (x : ℝ)) * (2/3))]
  · intro hreal
    by_cases hle : x + y ≤ 2 * x
    · exact Or.inl hle
    · right
      have hlt : 2 * x < x + y := by omega
      have h2x : 2 * (x : ℝ) < (x : ℝ) + (y : ℝ) := by exact_mod_cast hlt
      have hgap : (0 : ℝ) ≤ ((x : ℝ) + (y : ℝ)) / 2 - (x : ℝ) := by linarith
      have hber : ((x : ℝ) + (y : ℝ)) / 2 - (x : ℝ) ≤
          (3/4) * Real.sqrt ((x : ℝ) + (y : ℝ)) := by linarith
      have hsqle : (((x : ℝ) + (y : ℝ)) / 2 - (x : ℝ)) ^ 2 ≤
          ((3/4) * Real.sqrt ((x : ℝ) + (y : ℝ))) ^ 2 :=
        pow_le_pow_left hgap hber 2
      rw [mul_pow, hsq] at hsqle
      have hcast : ((x + y - 2 * x : ℕ) : ℝ) =
          (x : ℝ) + (y : ℝ) - 2 * (x : ℝ) := by
        push_cast [Nat.cast_sub (by omega : 2 * x ≤ x + y)]
        ring
      have hr : ((4 * ((x + y - 2 * x : ℕ)) ^ 2 : ℕ) : ℝ) ≤
          ((9 * (x + y) : ℕ) : ℝ) := by
        push_cast
        rw [hcast]
        nlinarith
      exact_mod_cast hr

end Theorems

end Axelrod
